import Mathlib

/-!
# Shallow embedding of the shellkick agent core (src/main.rs)

The agent exploration engine of `src/main.rs` is embedded as executable Lean
definitions:

* `Fitness` with `Fitness.pcmp` mirrors `enum Fitness` and its
  `PartialOrd` implementation (src/main.rs:85-106); `Fitness.fle`,
  `Fitness.fge`, `Fitness.flt` are Rust's comparison operators derived from
  `partial_cmp` (which is total on this type).
* `Mario` mirrors `struct Mario` (src/main.rs:59-69).  The Rust `Vec` fields
  (`revert_stack`, `inputs_past`, `states`) are stacks, modelled with the
  newest element at the HEAD of a Lean list, so `Vec::push` is `cons`,
  `Vec::pop` is `tail` and `Vec::last` is `head?`.  The `VecDeque`
  `inputs_future` is a FIFO queue modelled with its front at the head, so
  `push_back` appends and `pop_front` takes the head.
* The simulator (`fastnes::NES`) is external to the repository; it appears as
  a type parameter `σ` together with a frame-step function
  `stepF : σ → Nat → σ` (one `nes.next_frame()` under a given input byte) and
  a fitness map `fitnessF : σ → Fitness`.  The concrete fitness and scroll
  evaluators over NES memory reads are embedded separately as `fitness` and
  `scroll` over a memory map `Nat → Nat` (a `read` is taken mod 256, the `u8`
  range).
* `next_input` (src/main.rs:71-83) draws from `rand::thread_rng`; it is
  abstracted as a parameter `nextInputF : Nat → ρ → Nat × ρ` threading an RNG
  state of type `ρ`.
* A Rust panic (an `unwrap` of an empty collection, or the division
  `360 * 20 / playful` with `playful = 0`) is modelled as `none`.

All machine integers are modelled as `Nat`; the only place where `u32`
wrap-around is reachable is the `*num -= 1` decrement of the random-mode
counter (src/main.rs:178), which is modelled with an explicit `% 2 ^ 32`.
(`stuck_count += 1` cannot wrap: it resets whenever it reaches the `u32`
value `patient`.)
-/

/-- `enum Fitness` (src/main.rs:85-90): `Dying(bool)`, `Cutscene`,
`Level(u64)`. -/
inductive Fitness where
  | Dying : Bool → Fitness
  | Cutscene : Fitness
  | Level : Nat → Fitness
deriving DecidableEq, Repr

/-- `impl PartialOrd for Fitness` (src/main.rs:92-106), case by case.  The
Rust implementation always returns `Some`, so the result is a total
`Ordering`. -/
def Fitness.pcmp : Fitness → Fitness → Ordering
  | .Dying _, .Dying _ => .eq
  | .Dying _, .Cutscene => .lt
  | .Dying _, .Level _ => .lt
  | .Cutscene, .Dying _ => .gt
  | .Cutscene, .Cutscene => .eq
  | .Cutscene, .Level _ => .gt
  | .Level _, .Dying _ => .gt
  | .Level _, .Cutscene => .lt
  | .Level a, .Level b => compare a b

/-- Rust's `<=` on `Fitness`: `partial_cmp` is `Less` or `Equal`. -/
def Fitness.fle (a b : Fitness) : Bool :=
  match a.pcmp b with
  | .lt => true
  | .eq => true
  | .gt => false

/-- Rust's `>=` on `Fitness`: `partial_cmp` is `Greater` or `Equal`. -/
def Fitness.fge (a b : Fitness) : Bool :=
  match a.pcmp b with
  | .gt => true
  | .eq => true
  | .lt => false

/-- Rust's `<` on `Fitness`: `partial_cmp` is `Less`. -/
def Fitness.flt (a b : Fitness) : Bool :=
  match a.pcmp b with
  | .lt => true
  | .eq => false
  | .gt => false

/-- `struct Personality` (src/main.rs:50-57).  The `twitchy : f32` field is
consumed only inside the RNG-driven `next_input`, which is abstracted as the
parameter `nextInputF`, so it does not appear here. -/
structure Personality where
  patient : Nat
  random : Nat
  playful : Nat
  smart : Nat
deriving DecidableEq, Repr

/-- `struct Mario` (src/main.rs:59-69).  Stacks (`revert_stack`,
`inputs_past`, `states`) keep their newest element at the head; the queue
`inputs_future` keeps its front at the head. -/
structure Mario (σ : Type) where
  personality : Personality
  revert_stack : List Nat
  being_random : Option Nat
  stuck_count : Nat
  inputs_past : List Nat
  inputs_future : List Nat
  states : List σ
deriving DecidableEq, Repr

/-- The checkpoint append `mario.states.push(nes.clone())` (src/main.rs:159).
The history is a plain growable `Vec`: the source contains no length cap and
no eviction of old entries. -/
def appendCheckpoint {σ : Type} (m : Mario σ) (s : σ) : Mario σ :=
  { m with states := s :: m.states }

/-- The sequence-generation loop shared by the random branch
(src/main.rs:183-187) and the candidate generation (src/main.rs:194-201):
`for _ in 0..n { if mutate { last = next_input(last, personality) };
list.push_back(last) }`.  For candidate `i = 0` the Rust code skips the
`next_input` call, so `mutate` is `false` there and no RNG state is
consumed. -/
def genSeq {ρ : Type} (nextInputF : Nat → ρ → Nat × ρ) (mutate : Bool) :
    Nat → Nat → ρ → List Nat × ρ
  | 0, _, rng => ([], rng)
  | n + 1, last, rng =>
    if mutate then
      let p := nextInputF last rng
      let rest := genSeq nextInputF mutate n p.1 p.2
      (p.1 :: rest.1, rest.2)
    else
      let rest := genSeq nextInputF mutate n last rng
      (last :: rest.1, rest.2)

/-- Stepping a cloned simulator through a whole candidate sequence
(src/main.rs:204-211): `for item in list { input.store(item);
cloned.next_frame(); }`. -/
def rollout {σ : Type} (stepF : σ → Nat → σ) (s : σ) (l : List Nat) : σ :=
  l.foldl stepF s

/-- One iteration of the candidate loop `for i in 0..smart`
(src/main.rs:192-219): generate a candidate (mutating only when `i > 0`),
run a clone through it, score the result, and install the candidate whenever
`score >= best_result`.  The accumulator is
`(best_result, inputs_future, rng)`. -/
def searchStep {σ ρ : Type} (stepF : σ → Nat → σ) (fitnessF : σ → Fitness)
    (nextInputF : Nat → ρ → Nat × ρ) (pers : Personality) (nes : σ)
    (last0 : Nat) (acc : Fitness × List Nat × ρ) (i : Nat) :
    Fitness × List Nat × ρ :=
  let gen := genSeq nextInputF (decide (0 < i)) pers.playful last0 acc.2.2
  let score := fitnessF (rollout stepF nes gen.1)
  if score.fge acc.1 then (score, gen.1, gen.2) else (acc.1, acc.2.1, gen.2)

/-- The body shared by both pop loops in `revert` (src/main.rs:248-253 and
256-262): a `Vec::pop` of the revert stack and the state stack (silently a
no-op on an empty `Vec`) together with `playful` pops of the input history.
With newest-first stacks a pop is `tail` and the input pops are `drop`. -/
def revertPop {σ : Type} (m : Mario σ) : Mario σ :=
  { m with
    revert_stack := m.revert_stack.tail
    states := m.states.tail
    inputs_past := m.inputs_past.drop m.personality.playful }

/-- The requested-rewind loop `for _ in 0..amount` (src/main.rs:248-254). -/
def revertFor {σ : Type} (m : Mario σ) : Nat → Mario σ
  | 0 => m
  | n + 1 => revertFor (revertPop m) n

/-- The anti-thrash loop (src/main.rs:256-262):
`while *revert_stack.last().unwrap() >= 1 { pop ... }`.  The loop is run on
the three popped components; reading `last()` of an empty revert stack is an
`unwrap` panic, modelled as `none`. -/
def revertLoop {σ : Type} (playful : Nat) :
    List Nat → List σ → List Nat → Option (List Nat × List σ × List Nat)
  | [], _, _ => none
  | c :: rs, st, past =>
    if c ≥ 1 then revertLoop playful rs st.tail (past.drop playful)
    else some (c :: rs, st, past)

/-- `fn revert` (src/main.rs:246-265): pop `amount` checkpoints, run the
anti-thrash loop, and increment the revert counter of the checkpoint landed
on (`*revert_stack.last_mut().unwrap() += 1`).  `none` models the panic of
`last().unwrap()` / `last_mut().unwrap()` on an emptied revert stack. -/
def revert {σ : Type} (m : Mario σ) (amount : Nat) : Option (Mario σ) :=
  let m1 := revertFor m amount
  match revertLoop m1.personality.playful m1.revert_stack m1.states m1.inputs_past with
  | none => none
  | some ([], _, _) => none
  | some (c :: rs, st, past) =>
    some { m1 with revert_stack := (c + 1) :: rs, states := st, inputs_past := past }

/-- The revert-on-failure step of the decision point (src/main.rs:161-174):
when the current score is `Dying`, revert (by `360 * 20 / playful` frames on
an out-of-time failure, otherwise by `2`), then pop the landing state off the
stack as the new frontier and re-evaluate its fitness.  The division panics
when `playful = 0`, and the pops panic on an empty stack; both are `none`. -/
def revertPhase {σ : Type} (fitnessF : σ → Fitness) (m : Mario σ) (nes : σ)
    (score : Fitness) : Option (Mario σ × σ × Fitness) :=
  if score = .Dying false ∨ score = .Dying true then
    if score = .Dying true ∧ m.personality.playful = 0 then none
    else
      match revert m (if score = .Dying true then 360 * 20 / m.personality.playful else 2) with
      | none => none
      | some m2 =>
        match m2.states with
        | [] => none
        | nes2 :: rest2 => some ({ m2 with states := rest2 }, nes2, fitnessF nes2)
  else some (m, nes, score)

/-- The stuck-counter update after a rollout search (src/main.rs:221-228):
`if best_result <= score && best_result != Cutscene { stuck_count += 1;
if stuck_count >= patient { stuck_count = 0; being_random = Some(random) } }`. -/
def stuckUpdate {σ : Type} (m : Mario σ) (best score : Fitness) : Mario σ :=
  if best.fle score ∧ best ≠ Fitness.Cutscene then
    if m.stuck_count + 1 ≥ m.personality.patient then
      { m with stuck_count := 0, being_random := some m.personality.random }
    else { m with stuck_count := m.stuck_count + 1 }
  else m

/-- The queue refill of the decision point: the random branch
(src/main.rs:176-187) decrements the random-mode counter (a `u32` `-= 1`,
wrapping) and pushes an unscored generated sequence; the search branch
(src/main.rs:188-229) folds `searchStep` over `0..smart` starting from
`best_result = Dying(false)` and then runs the stuck-counter update.
`inputs_past.last().unwrap()` on an empty input history is a panic. -/
def refillPhase {σ ρ : Type} (stepF : σ → Nat → σ) (fitnessF : σ → Fitness)
    (nextInputF : Nat → ρ → Nat × ρ) (m : Mario σ) (nes : σ) (score : Fitness)
    (rng : ρ) : Option (Mario σ × ρ) :=
  match m.being_random with
  | some num =>
    match m.inputs_past with
    | [] => none
    | last0 :: _ =>
      let n2 := (num + (2 ^ 32 - 1)) % 2 ^ 32
      let gen := genSeq nextInputF true m.personality.playful last0 rng
      some ({ m with
                being_random := if n2 = 0 then none else some n2
                inputs_future := m.inputs_future ++ gen.1 }, gen.2)
  | none =>
    match m.inputs_past with
    | [] => none
    | last0 :: _ =>
      let res := (List.range m.personality.smart).foldl
        (searchStep stepF fitnessF nextInputF m.personality nes last0)
        (Fitness.Dying false, m.inputs_future, rng)
      some (stuckUpdate { m with inputs_future := res.2.1 } res.1 score, res.2.2)

/-- The decision-point half of `next_frame` (src/main.rs:151-232): pop the
frontier simulator and evaluate it; when the action queue is empty, push a
checkpoint clone, revert on a `Dying` score, refill the queue (random
generation or rollout search) and push a fresh revert counter
(`revert_stack.push(0)`, src/main.rs:231).  Returns the updated agent, the
frontier held outside the state stack, and the RNG. -/
def decisionPhase {σ ρ : Type} (stepF : σ → Nat → σ) (fitnessF : σ → Fitness)
    (nextInputF : Nat → ρ → Nat × ρ) (m : Mario σ) (rng : ρ) :
    Option (Mario σ × σ × ρ) :=
  match m.states with
  | [] => none
  | nes :: rest =>
    let m1 : Mario σ := { m with states := rest }
    let score := fitnessF nes
    if m1.inputs_future.isEmpty then
      match revertPhase fitnessF { m1 with states := nes :: rest } nes score with
      | none => none
      | some (m2, nes2, score2) =>
        match refillPhase stepF fitnessF nextInputF m2 nes2 score2 rng with
        | none => none
        | some (m3, rng2) =>
          some ({ m3 with revert_stack := 0 :: m3.revert_stack }, nes2, rng2)
    else some (m1, nes, rng)

/-- The frame-advance tail of `next_frame` (src/main.rs:234-243): dequeue one
action (`inputs_future.pop_front().unwrap()`, a panic on an empty queue),
record it in `inputs_past`, step the frontier one frame under it, and push
the frontier back onto the state stack. -/
def stepPhase {σ : Type} (stepF : σ → Nat → σ) (m : Mario σ) (nes : σ) :
    Option (Mario σ) :=
  match m.inputs_future with
  | [] => none
  | a :: q =>
    some { m with
             inputs_future := q
             inputs_past := a :: m.inputs_past
             states := stepF nes a :: m.states }

/-- `fn next_frame` (src/main.rs:151-244): the decision-point half followed
by exactly one frame advance of the frontier. -/
def nextFrame {σ ρ : Type} (stepF : σ → Nat → σ) (fitnessF : σ → Fitness)
    (nextInputF : Nat → ρ → Nat × ρ) (m : Mario σ) (rng : ρ) :
    Option (Mario σ × ρ) :=
  match decisionPhase stepF fitnessF nextInputF m rng with
  | none => none
  | some (m2, nes, rng2) =>
    match stepPhase stepF m2 nes with
    | none => none
    | some m3 => some (m3, rng2)

/-- Iterated ticks of one agent, as driven by the worker loop
(src/main.rs:395-407, one `next_frame(mario)` per tick). -/
def runTicks {σ ρ : Type} (stepF : σ → Nat → σ) (fitnessF : σ → Fitness)
    (nextInputF : Nat → ρ → Nat × ρ) : Nat → Mario σ → ρ → Option (Mario σ × ρ)
  | 0, m, rng => some (m, rng)
  | k + 1, m, rng =>
    match nextFrame stepF fitnessF nextInputF m rng with
    | none => none
    | some (m2, rng2) => runTicks stepF fitnessF nextInputF k m2 rng2

/-- `nes.read(addr)` returns a `u8`; a memory snapshot is modelled as a map
`Nat → Nat` and a read truncates to the byte range. -/
def rd (mem : Nat → Nat) (a : Nat) : Nat := mem a % 256

/-- `fn fitness` (src/main.rs:108-138) over a memory snapshot. -/
def fitness (mem : Nat → Nat) : Fitness :=
  let level_pos := rd mem 0x6d <<< 8 ||| rd mem 0x86
  let mario_position := rd mem 0x075f <<< 24 ||| rd mem 0x0760 <<< 16 ||| level_pos
  let engine := rd mem 0x0e
  let task := rd mem 0x0772
  let mode := rd mem 0x0770
  let mario_y := rd mem 0xb5 <<< 8 ||| rd mem 0xce
  let cutscene : Bool :=
    decide (engine ≤ 5) || decide (engine = 7) || decide (mode = 2) ||
      (decide (mode = 1) && decide (task ≠ 3))
  let dying : Bool :=
    (decide (mario_y > 456) || decide (engine = 6) || decide (engine = 11) ||
      decide (mode = 0) || decide (mode = 3)) && !cutscene
  let time := rd mem 0x07f8 * 100 + rd mem 0x07f9 * 10 + rd mem 0x07fa
  let out_of_time : Bool := decide (time = 0) && !cutscene
  if dying || out_of_time then Fitness.Dying out_of_time
  else if cutscene then Fitness.Cutscene
  else Fitness.Level mario_position

/-- `fn scroll` (src/main.rs:140-149) over a memory snapshot: the value
published per tick, built from the screen-scroll bytes `0x071a`/`0x071c`
(not the level-position bytes `0x6d`/`0x86` used by `fitness`). -/
def scroll (mem : Nat → Nat) : Nat :=
  let level_pos := rd mem 0x071a <<< 8 ||| rd mem 0x071c
  rd mem 0x075f <<< 24 ||| rd mem 0x0760 <<< 16 ||| level_pos

/-- The per-tick score publication (src/main.rs:400-402):
`scores[i] = scroll(nes)` where `nes` is the agent's frontier state
(`mario.states.last_mut().unwrap()`). -/
def publishScore {σ : Type} (scrollF : σ → Nat) (m : Mario σ) : Option Nat :=
  m.states.head?.map scrollF

/-! ## Concrete instantiations used for evaluation -/

/-- A trivial one-state simulator step, for concrete evaluations. -/
def unitStep : Unit → Nat → Unit := fun s _ => s

/-- A constant fitness evaluator, for concrete evaluations. -/
def constLevel (c : Nat) : Unit → Fitness := fun _ => Fitness.Level c

/-- A deterministic stand-in for the RNG-driven `next_input`: flip to the
successor byte value, with a trivial RNG state. -/
def succInput : Nat → Unit → Nat × Unit := fun n r => (n + 1, r)

/-- A stand-in frame step on memory snapshots, for concrete evaluations. -/
def memStep : (Nat → Nat) → Nat → (Nat → Nat) := fun mem _ => mem

/-- The all-zero memory snapshot: `engine = 0 <= 5` makes it a cutscene,
while `mode = 0` and `time = 0` would also satisfy the loss-of-progress and
out-of-time checks. -/
def memZero : Nat → Nat := fun _ => 0

/-- A memory snapshot in normal gameplay (`engine = 8`, `mode = 1`,
`task = 3`, `time = 100`) whose fitness is `Level 256` (level-position byte
`0x6d = 1`) while all screen-scroll bytes are zero. -/
def memLevel : Nat → Nat := fun a =>
  if a = 0x6d then 1 else if a = 0x0e then 8 else if a = 0x0770 then 1
  else if a = 0x0772 then 3 else if a = 0x07f8 then 1 else 0

/-- `memLevel` with a different level-position byte `0x6d`; it agrees with
`memLevel` on every byte the `scroll` evaluator reads. -/
def memLevel2 : Nat → Nat := fun a => if a = 0x6d then 7 else memLevel a

/-- An agent with an empty checkpoint history, used to run concrete
`appendCheckpoint` sequences. -/
def marioC2 : Mario Nat :=
  { personality := ⟨10, 5, 8, 2⟩, revert_stack := [0], being_random := none,
    stuck_count := 0, inputs_past := [], inputs_future := [], states := [] }

/-- An agent whose frontier state is `memLevel` and whose action queue still
holds one action. -/
def marioC9 : Mario (Nat → Nat) :=
  { personality := ⟨10, 5, 8, 2⟩, revert_stack := [0], being_random := none,
    stuck_count := 0, inputs_past := [0], inputs_future := [0], states := [memLevel] }

/-- The state of `marioC9` after one tick (one dequeue and one frame). -/
def marioC9out : Mario (Nat → Nat) :=
  { personality := ⟨10, 5, 8, 2⟩, revert_stack := [0], being_random := none,
    stuck_count := 0, inputs_past := [0, 0], inputs_future := [], states := [memLevel] }

/-- An agent whose revert stack holds a single fresh counter; rewinding it by
2 exhausts the stack. -/
def marioC3 : Mario Nat :=
  { personality := ⟨10, 5, 1, 2⟩, revert_stack := [0], being_random := none,
    stuck_count := 0, inputs_past := [], inputs_future := [], states := [7] }

/-- An agent with two checkpoints, for a successful rewind by 1. -/
def marioC3b : Mario Nat :=
  { personality := ⟨10, 5, 1, 2⟩, revert_stack := [0, 0], being_random := none,
    stuck_count := 0, inputs_past := [1, 2, 3], inputs_future := [], states := [10, 20] }

/-- `marioC3b` after `revert _ 1`. -/
def marioC3out : Mario Nat :=
  { personality := ⟨10, 5, 1, 2⟩, revert_stack := [1], being_random := none,
    stuck_count := 0, inputs_past := [2, 3], inputs_future := [], states := [20] }

/-- An agent with four checkpoints and all revert counters fresh. -/
def marioC5 : Mario Nat :=
  { personality := ⟨10, 5, 1, 2⟩, revert_stack := [0, 0, 0, 0], being_random := none,
    stuck_count := 0, inputs_past := [9, 9, 9, 9], inputs_future := [],
    states := [1, 2, 3, 4] }

/-- `marioC5` after `revert _ 1`. -/
def marioC5a : Mario Nat :=
  { personality := ⟨10, 5, 1, 2⟩, revert_stack := [1, 0, 0], being_random := none,
    stuck_count := 0, inputs_past := [9, 9, 9], inputs_future := [], states := [2, 3, 4] }

/-- `marioC5a` after `revert _ 0`: the anti-thrash loop pops past the
previously used checkpoint even though 0 frames were requested. -/
def marioC5b : Mario Nat :=
  { personality := ⟨10, 5, 1, 2⟩, revert_stack := [1, 0], being_random := none,
    stuck_count := 0, inputs_past := [9, 9], inputs_future := [], states := [3, 4] }

/-- A searching agent at a decision point with two candidates (`smart = 2`)
and a one-frame horizon (`playful = 1`). -/
def marioC4 : Mario Unit :=
  { personality := ⟨5, 3, 1, 2⟩, revert_stack := [0], being_random := none,
    stuck_count := 0, inputs_past := [0], inputs_future := [], states := [()] }

/-- A draining agent (queue non-empty), for single-tick evaluation. -/
def marioC7 : Mario Unit :=
  { personality := ⟨2, 3, 1, 1⟩, revert_stack := [0], being_random := none,
    stuck_count := 0, inputs_past := [0], inputs_future := [5], states := [()] }

/-- `marioC7` after one tick. -/
def marioC7out : Mario Unit :=
  { personality := ⟨2, 3, 1, 1⟩, revert_stack := [0], being_random := none,
    stuck_count := 0, inputs_past := [5, 0], inputs_future := [], states := [()] }

/-- A searching agent at a decision point (`patient = 2`, `random = 3`,
`playful = 1`, `smart = 1`). -/
def marioC6 : Mario Unit :=
  { personality := ⟨2, 3, 1, 1⟩, revert_stack := [0], being_random := none,
    stuck_count := 0, inputs_past := [0], inputs_future := [], states := [()] }

/-! ## Helper lemmas -/

/-- Folding checkpoint appends: every appended entry survives, newest
first. -/
theorem appendCheckpoint_foldl_states {σ : Type} (l : List σ) (m : Mario σ) :
    (l.foldl appendCheckpoint m).states = l.reverse ++ m.states := by
  induction l generalizing m with
  | nil => rfl
  | cons a t ih => simp [List.foldl_cons, ih, appendCheckpoint]

/-! ## Claims -/

/-- C1: the claim places `Transitional` strictly between `Failing` and
`Progressing`, but the source comparison (src/main.rs:100,102) puts
`Cutscene` strictly ABOVE `Level`: `Cutscene < Level 0` is false and
`partial_cmp(Cutscene, Level 0)` is `Greater`. -/
theorem C1_cex : Fitness.flt Fitness.Cutscene (Fitness.Level 0) = false ∧
    Fitness.pcmp Fitness.Cutscene (Fitness.Level 0) = Ordering.gt :=
  ⟨rfl, rfl⟩

/-- C1 (amended): for every terminal flag `t` and distance `d`,
`Failing(t) < Transitional`, `Failing(t) < Progressing(d)` and
`Progressing(d) < Transitional`: `Transitional` is the strict maximum of the
order, above both `Failing` and `Progressing`. -/
theorem C1_amended : ∀ (t : Bool) (d : Nat),
    Fitness.flt (Fitness.Dying t) Fitness.Cutscene = true ∧
    Fitness.flt (Fitness.Dying t) (Fitness.Level d) = true ∧
    Fitness.flt (Fitness.Level d) Fitness.Cutscene = true :=
  fun _ _ => ⟨rfl, rfl, rfl⟩

/-- C2: the claim caps the history at 400 entries, but the source history is
an uncapped `Vec`: 401 appends onto an empty history leave 401 entries. -/
theorem C2_cex :
    ((List.range 401).foldl appendCheckpoint marioC2).states.length = 401 ∧
    ¬ ((List.range 401).foldl appendCheckpoint marioC2).states.length ≤ 400 := by
  have h := appendCheckpoint_foldl_states (List.range 401) marioC2
  constructor
  · rw [h]; simp [marioC2]
  · rw [h]; simp [marioC2]

/-- C2 (amended): checkpoint appends never evict anything: after any
sequence of appends every entry survives, newest first (so the history is
all entries in insertion order), and the length grows by exactly the number
of appends. -/
theorem C2_amended : ∀ (σ : Type) (l : List σ) (m : Mario σ),
    (l.foldl appendCheckpoint m).states = l.reverse ++ m.states ∧
    (l.foldl appendCheckpoint m).states.length = l.length + m.states.length := by
  intro σ l m
  have h := appendCheckpoint_foldl_states l m
  exact ⟨h, by simp [h, Nat.add_comm]⟩

/-- C8: the fitness evaluator gives the transition check priority over the
failing checks: whenever the cutscene condition of src/main.rs:121 holds,
`fitness` returns `Cutscene`, never `Dying`, even if the loss-of-progress or
out-of-time conditions also hold. -/
theorem C8_thm (mem : Nat → Nat)
    (h : rd mem 0x0e ≤ 5 ∨ rd mem 0x0e = 7 ∨ rd mem 0x0770 = 2 ∨
         (rd mem 0x0770 = 1 ∧ rd mem 0x0772 ≠ 3)) :
    fitness mem = Fitness.Cutscene := by
  have hcut : (decide (rd mem 0x0e ≤ 5) || decide (rd mem 0x0e = 7) ||
      decide (rd mem 0x0770 = 2) ||
      (decide (rd mem 0x0770 = 1) && decide (rd mem 0x0772 ≠ 3))) = true := by
    rcases h with h | h | h | ⟨h1, h2⟩
    · simp [h]
    · simp [h]
    · simp [h]
    · simp [h1, h2]
  simp only [fitness]
  simp only [hcut]
  simp

/-- C8 witness: the all-zero snapshot satisfies both a cutscene signal
(`engine = 0`) and loss signals (`mode = 0`, `time = 0`), and is classified
`Cutscene`. -/
theorem C8_witness : fitness memZero = Fitness.Cutscene :=
  C8_thm memZero (Or.inl (by decide))

/-- Successful dequeue-and-step: the queue held a first action `a`, the
frontier advanced exactly one frame under it, and `a` moved to the input
history. -/
theorem stepPhase_some {σ : Type} {stepF : σ → Nat → σ} {m m' : Mario σ}
    {nes : σ} (h : stepPhase stepF m nes = some m') :
    ∃ a q, m.inputs_future = a :: q ∧
      m' = { m with inputs_future := q, inputs_past := a :: m.inputs_past,
                    states := stepF nes a :: m.states } := by
  unfold stepPhase at h
  cases hq : m.inputs_future with
  | nil => rw [hq] at h; exact absurd h (by simp)
  | cons a q =>
    rw [hq] at h
    simp only [Option.some.injEq] at h
    exact ⟨a, q, rfl, h.symm⟩

/-- A successful tick is a successful decision phase followed by a
successful dequeue-and-step. -/
theorem nextFrame_some {σ ρ : Type} {stepF : σ → Nat → σ}
    {fitnessF : σ → Fitness} {nextInputF : Nat → ρ → Nat × ρ}
    {m m' : Mario σ} {rng rng' : ρ}
    (h : nextFrame stepF fitnessF nextInputF m rng = some (m', rng')) :
    ∃ m2 nes, decisionPhase stepF fitnessF nextInputF m rng = some (m2, nes, rng') ∧
      stepPhase stepF m2 nes = some m' := by
  unfold nextFrame at h
  split at h
  next heq => exact absurd h (by simp)
  next m2 nes rng2 heq =>
    split at h
    next heq2 => exact absurd h (by simp)
    next m3 heq2 =>
      simp only [Option.some.injEq, Prod.mk.injEq] at h
      exact ⟨m2, nes, by rw [heq, h.2], by rw [heq2, h.1]⟩

/-- Dropping after a `tail` is dropping one element more. -/
theorem tail_drop_aux {α : Type} (l : List α) (k : Nat) :
    l.tail.drop k = l.drop (k + 1) := by
  rw [← List.drop_one, List.drop_drop]
  congr 1
  omega

/-- Dropping `k * pl` elements after dropping `pl` drops `(k+1) * pl`. -/
theorem drop_mul_aux {α : Type} (l : List α) (k pl : Nat) :
    (l.drop pl).drop (k * pl) = l.drop ((k + 1) * pl) := by
  rw [List.drop_drop]; congr 1; ring

/-- The requested-rewind loop pops `n` entries off the revert stack and the
state stack and `n * playful` inputs off the input history. -/
theorem revertFor_eq {σ : Type} (m : Mario σ) (n : Nat) :
    revertFor m n =
      { m with revert_stack := m.revert_stack.drop n,
               states := m.states.drop n,
               inputs_past := m.inputs_past.drop (n * m.personality.playful) } := by
  induction n generalizing m with
  | zero =>
    obtain ⟨pers, rs, br, sc, past, fut, st⟩ := m
    simp [revertFor]
  | succ k ih =>
    obtain ⟨pers, rs, br, sc, past, fut, st⟩ := m
    rw [revertFor, ih]
    dsimp only [revertPop]
    rw [tail_drop_aux rs k, tail_drop_aux st k, drop_mul_aux past k pers.playful]

/-- The anti-thrash loop pops some number `j` of entries (in tandem from the
three stacks) and stops exactly at the first revert counter equal to 0. -/
theorem revertLoop_some {σ : Type} {pl : Nat} :
    ∀ {rs : List Nat} {st : List σ} {past rs' : List Nat} {st' : List σ}
      {past' : List Nat},
      revertLoop pl rs st past = some (rs', st', past') →
      ∃ j, rs' = rs.drop j ∧ st' = st.drop j ∧ past' = past.drop (j * pl) ∧
        rs'.head? = some 0 := by
  intro rs
  induction rs with
  | nil => intro st past rs' st' past' h; exact absurd h (by simp [revertLoop])
  | cons c t ih =>
    intro st past rs' st' past' h
    rw [revertLoop] at h
    by_cases hc : c ≥ 1
    · rw [if_pos hc] at h
      obtain ⟨j, h1, h2, h3, h4⟩ := ih h
      refine ⟨j + 1, ?_, ?_, ?_, h4⟩
      · simpa using h1
      · rw [h2, tail_drop_aux]
      · rw [h3, drop_mul_aux]
    · rw [if_neg hc] at h
      simp only [Option.some.injEq, Prod.mk.injEq] at h
      have hc0 : c = 0 := by omega
      refine ⟨0, ?_, ?_, ?_, ?_⟩
      · simp [← h.1]
      · simp [← h.2.1]
      · simp [← h.2.2]
      · rw [← h.1, hc0]; rfl

/-- Characterization of a successful `revert`: some `k ≥ amount` entries are
popped in tandem from the revert stack, the state stack and (times
`playful`) the input history; the revert counter at the landing checkpoint
was 0 and is incremented to 1; no other field changes. -/
theorem revert_some {σ : Type} {m m' : Mario σ} {amount : Nat}
    (h : revert m amount = some m') :
    ∃ k rs0, amount ≤ k ∧
      m.revert_stack.drop k = 0 :: rs0 ∧
      m' = { m with revert_stack := 1 :: rs0,
                    states := m.states.drop k,
                    inputs_past := m.inputs_past.drop (k * m.personality.playful) } := by
  unfold revert at h
  rw [revertFor_eq] at h
  dsimp only at h
  split at h
  next heq => exact absurd h (by simp)
  next a b heq => exact absurd h (by simp)
  next c rs0 st0 past0 heq =>
    simp only [Option.some.injEq] at h
    obtain ⟨j, h1, h2, h3, h4⟩ := revertLoop_some heq
    have hc0 : c = 0 := by simpa using h4
    refine ⟨amount + j, rs0, Nat.le_add_right _ _, ?_, ?_⟩
    · rw [← List.drop_drop, ← h1, hc0]
    · rw [← h]
      subst hc0
      have hp : (amount + j) * m.personality.playful =
          amount * m.personality.playful + j * m.personality.playful := by ring
      rw [h2, h3, List.drop_drop, List.drop_drop, hp]

/-- C3: the claim says `revert` never fails; but a rewind request that
exceeds the recorded history empties the revert stack, and the subsequent
`last().unwrap()` panics instead of clamping. -/
theorem C3_cex : revert marioC3 2 = none := rfl

/-- C3 (amended): a successful `revert` never returns a state older than the
oldest checkpoint present at call time: the surviving state stack is an
oldest-end tail (`drop` of the newest `k` entries) of the stack at call
time, so every surviving state — in particular the new frontier — was
already present; but `revert` FAILS (panics on `last().unwrap()`) whenever
the requested rewind plus the anti-thrash pops exhaust the revert stack,
rather than clamping. -/
theorem C3_amended {σ : Type} (m m' : Mario σ) (amount : Nat)
    (h : revert m amount = some m') :
    ∃ k, m'.states = m.states.drop k ∧ m'.states ⊆ m.states := by
  obtain ⟨k, rs0, hk, hdrop, hm⟩ := revert_some h
  subst hm
  exact ⟨k, rfl, List.drop_subset k m.states⟩

/-- C3 witness: a concrete successful rewind by 1 on a two-checkpoint
history. -/
theorem C3_witness : ∃ k, marioC3out.states = marioC3b.states.drop k ∧
    marioC3out.states ⊆ marioC3b.states :=
  C3_amended marioC3b marioC3out 1 rfl

/-- C5: after a successful `revert` the landing checkpoint's counter is 1
(it was 0 — the anti-thrash loop popped every nonzero counter off the top —
and was then incremented), and a second successful `revert` without an
intervening append pops strictly deeper: the revert stack gets strictly
shorter even if 0 frames are requested. -/
theorem C5_thm {σ : Type} (m m1 m2 : Mario σ) (a1 a2 : Nat)
    (h1 : revert m a1 = some m1) (h2 : revert m1 a2 = some m2) :
    m1.revert_stack.head? = some 1 ∧
    m2.revert_stack.length < m1.revert_stack.length := by
  obtain ⟨k, rs0, hk, hdrop, hm1⟩ := revert_some h1
  obtain ⟨k2, rs2, hk2, hdrop2, hm2⟩ := revert_some h2
  subst hm1
  subst hm2
  dsimp only at hdrop2 ⊢
  refine ⟨rfl, ?_⟩
  have hk21 : 1 ≤ k2 := by
    rcases Nat.eq_zero_or_pos k2 with h0 | h0
    · subst h0; simp at hdrop2
    · exact h0
  have hlen := congrArg List.length hdrop2
  rw [List.length_drop] at hlen
  simp only [List.length_cons] at hlen ⊢
  omega

/-- C5 witness: two concrete successive reverts; the second requests 0
frames yet still pops one checkpoint deeper. -/
theorem C5_witness : marioC5a.revert_stack.head? = some 1 ∧
    marioC5b.revert_stack.length < marioC5a.revert_stack.length :=
  C5_thm marioC5 marioC5a marioC5b 1 0 rfl rfl

/-- C9: the claim says the published per-tick scalar equals the `distance`
of the latest `Progressing` outcome; but `scroll` reads the screen-scroll
bytes `0x071a`/`0x071c`, not the level-position bytes `0x6d`/`0x86` used by
`fitness`: here the frontier's outcome is `Progressing 256` while the
published value is 0. -/
theorem C9_cex : fitness memLevel = Fitness.Level 256 ∧
    publishScore scroll marioC9 = some 0 ∧ (256 : Nat) ≠ 0 :=
  ⟨by decide, by decide, by decide⟩

/-- C9 (amended): the value published once per tick is `scroll` of the
agent's post-tick frontier state, recomputed unconditionally whatever the
outcome category; and `scroll` depends only on the two world/level bytes
and the two screen-scroll bytes — not on the level-position bytes that make
up a `Progressing` outcome's distance. -/
theorem C9_amended :
    (∀ (σ ρ : Type) (stepF : σ → Nat → σ) (fitnessF : σ → Fitness)
       (nextInputF : Nat → ρ → Nat × ρ) (scrollF : σ → Nat) (m m' : Mario σ)
       (rng rng' : ρ),
       nextFrame stepF fitnessF nextInputF m rng = some (m', rng') →
       ∃ s, m'.states.head? = some s ∧ publishScore scrollF m' = some (scrollF s)) ∧
    (∀ mem mem' : Nat → Nat,
       mem 0x075f = mem' 0x075f → mem 0x0760 = mem' 0x0760 →
       mem 0x071a = mem' 0x071a → mem 0x071c = mem' 0x071c →
       scroll mem = scroll mem') := by
  constructor
  · intro σ ρ stepF fitnessF nextInputF scrollF m m' rng rng' h
    obtain ⟨m2, nes, hd, hs⟩ := nextFrame_some h
    obtain ⟨a, q, hq, hm⟩ := stepPhase_some hs
    subst hm
    exact ⟨stepF nes a, rfl, rfl⟩
  · intro mem mem' h1 h2 h3 h4
    simp only [scroll, rd, h1, h2, h3, h4]

/-- C9 witness: a concrete tick of an agent holding `memLevel`, and two
snapshots agreeing on the four `scroll` bytes but not on the level-position
byte. -/
theorem C9_witness :
    (∃ s, marioC9out.states.head? = some s ∧
       publishScore scroll marioC9out = some (scroll s)) ∧
    scroll memLevel = scroll memLevel2 :=
  ⟨C9_amended.1 (Nat → Nat) Unit memStep fitness succInput scroll marioC9
      marioC9out () () rfl,
   C9_amended.2 memLevel memLevel2 rfl rfl rfl rfl⟩

/-- Every outcome compares `>=` the non-terminal failing outcome:
`Dying(false)` is a least element of the comparison. -/
theorem fge_dying (x : Fitness) : x.fge (Fitness.Dying false) = true := by
  cases x <;> rfl

/-- Every outcome compares `>=` itself. -/
theorem fge_self (x : Fitness) : x.fge x = true := by
  cases x with
  | Dying b => rfl
  | Cutscene => rfl
  | Level a =>
    have h : compare a a = Ordering.eq := by simp [Nat.compare_eq_eq]
    simp [Fitness.fge, Fitness.pcmp, h]

/-- A generated sequence always has exactly `n` actions. -/
theorem genSeq_length {ρ : Type} (nextInputF : Nat → ρ → Nat × ρ) (mutate : Bool) :
    ∀ (n last : Nat) (rng : ρ), ((genSeq nextInputF mutate n last rng).1).length = n := by
  intro n
  induction n with
  | zero => intro last rng; rfl
  | succ k ih =>
    intro last rng
    cases mutate with
    | true => simp [genSeq, ih]
    | false => simp [genSeq, ih]

/-- `searchStep` when the candidate scores `>=` the best so far: the
candidate is installed. -/
theorem searchStep_install {σ ρ : Type} {stepF : σ → Nat → σ}
    {fitnessF : σ → Fitness} {nextInputF : Nat → ρ → Nat × ρ}
    {pers : Personality} {nes : σ} {last0 : Nat}
    (acc : Fitness × List Nat × ρ) (i : Nat)
    (hge : (fitnessF (rollout stepF nes
        (genSeq nextInputF (decide (0 < i)) pers.playful last0 acc.2.2).1)).fge acc.1
        = true) :
    searchStep stepF fitnessF nextInputF pers nes last0 acc i =
      (fitnessF (rollout stepF nes
          (genSeq nextInputF (decide (0 < i)) pers.playful last0 acc.2.2).1),
        (genSeq nextInputF (decide (0 < i)) pers.playful last0 acc.2.2).1,
        (genSeq nextInputF (decide (0 < i)) pers.playful last0 acc.2.2).2) := by
  unfold searchStep
  simp [hge]

/-- `searchStep` when the candidate scores strictly below the best so far:
the previous best and queue are kept (only the RNG advances). -/
theorem searchStep_skip {σ ρ : Type} {stepF : σ → Nat → σ}
    {fitnessF : σ → Fitness} {nextInputF : Nat → ρ → Nat × ρ}
    {pers : Personality} {nes : σ} {last0 : Nat}
    (acc : Fitness × List Nat × ρ) (i : Nat)
    (hge : (fitnessF (rollout stepF nes
        (genSeq nextInputF (decide (0 < i)) pers.playful last0 acc.2.2).1)).fge acc.1
        = false) :
    searchStep stepF fitnessF nextInputF pers nes last0 acc i =
      (acc.1, acc.2.1,
        (genSeq nextInputF (decide (0 < i)) pers.playful last0 acc.2.2).2) := by
  unfold searchStep
  simp [hge]

/-- One candidate iteration preserves a queue already holding `playful`
actions (whether it installs or keeps). -/
theorem searchStep_queue_length {σ ρ : Type} {stepF : σ → Nat → σ}
    {fitnessF : σ → Fitness} {nextInputF : Nat → ρ → Nat × ρ}
    {pers : Personality} {nes : σ} {last0 : Nat}
    (acc : Fitness × List Nat × ρ) (i : Nat)
    (h : acc.2.1.length = pers.playful) :
    ((searchStep stepF fitnessF nextInputF pers nes last0 acc i).2.1).length =
      pers.playful := by
  rcases Bool.eq_false_or_eq_true ((fitnessF (rollout stepF nes
      (genSeq nextInputF (decide (0 < i)) pers.playful last0 acc.2.2).1)).fge acc.1)
    with hge | hge
  · rw [searchStep_install acc i hge]; exact genSeq_length nextInputF _ _ _ _
  · rw [searchStep_skip acc i hge]; exact h

/-- Folding candidate iterations preserves a queue of `playful` actions. -/
theorem searchFold_keep {σ ρ : Type} {stepF : σ → Nat → σ}
    {fitnessF : σ → Fitness} {nextInputF : Nat → ρ → Nat × ρ}
    {pers : Personality} {nes : σ} {last0 : Nat} :
    ∀ (l : List Nat) (acc : Fitness × List Nat × ρ),
      acc.2.1.length = pers.playful →
      (((l.foldl (searchStep stepF fitnessF nextInputF pers nes last0) acc).2.1).length
        = pers.playful) := by
  intro l
  induction l with
  | nil => intro acc h; simpa using h
  | cons i t ih =>
    intro acc h
    rw [List.foldl_cons]
    exact ih _ (searchStep_queue_length acc i h)

/-- A non-empty candidate loop always ends with a queue of exactly `playful`
actions: the first candidate installs because every score is `>=` the
initial best `Dying(false)`. -/
theorem searchFold_start {σ ρ : Type} {stepF : σ → Nat → σ}
    {fitnessF : σ → Fitness} {nextInputF : Nat → ρ → Nat × ρ}
    {pers : Personality} {nes : σ} {last0 : Nat}
    (i : Nat) (t : List Nat) (q : List Nat) (r : ρ) :
    ((((i :: t).foldl (searchStep stepF fitnessF nextInputF pers nes last0)
        (Fitness.Dying false, q, r)).2.1).length = pers.playful) := by
  rw [List.foldl_cons]
  refine searchFold_keep t _ ?_
  rw [searchStep_install (Fitness.Dying false, q, r) i (fge_dying _)]
  exact genSeq_length nextInputF _ _ _ _

/-- With a constant fitness evaluator the running best of the candidate loop
is either the initial `Dying(false)` or the constant. -/
theorem searchFold_best {σ ρ : Type} {stepF : σ → Nat → σ}
    {fitnessF : σ → Fitness} {nextInputF : Nat → ρ → Nat × ρ}
    {pers : Personality} {nes : σ} {last0 : Nat} {c : Fitness}
    (hconst : ∀ s, fitnessF s = c) :
    ∀ (l : List Nat) (b : Fitness) (q : List Nat) (r : ρ),
      b = Fitness.Dying false ∨ b = c →
      ((l.foldl (searchStep stepF fitnessF nextInputF pers nes last0) (b, q, r)).1 =
          Fitness.Dying false ∨
        (l.foldl (searchStep stepF fitnessF nextInputF pers nes last0) (b, q, r)).1
          = c) := by
  intro l
  induction l with
  | nil => intro b q r hb; simpa using hb
  | cons i t ih =>
    intro b q r hb
    rw [List.foldl_cons]
    rcases Bool.eq_false_or_eq_true ((fitnessF (rollout stepF nes
        (genSeq nextInputF (decide (0 < i)) pers.playful last0 r).1)).fge b)
      with hge | hge
    · rw [searchStep_install (b, q, r) i hge, hconst]
      exact ih c _ _ (Or.inr rfl)
    · rw [searchStep_skip (b, q, r) i hge]
      exact ih b q _ hb

/-- C4: the claim says equal scores keep the earliest candidate; but the
installation test is `score >= best_result` (src/main.rs:215), so an equal
later candidate REPLACES the best: with two candidates of equal fitness the
queue ends up holding the second candidate `[1]`, not the first `[0]`. -/
theorem C4_cex :
    (decisionPhase unitStep (constLevel 5) succInput marioC4 ()).map
        (fun t => t.1.inputs_future) = some [1] ∧
    (genSeq succInput false 1 0 ()).1 = [0] ∧ ([1] : List Nat) ≠ [0] :=
  ⟨by decide, by decide, by decide⟩

/-- C4 (amended): when a later candidate's outcome is equal to (generally,
`>=`) the current best, the best IS replaced; consequently, if all
candidates evaluate to equal outcome, the search returns the LAST-generated
candidate: under a constant fitness evaluator the final queue is the
candidate generated at the final iteration `smart - 1`. -/
theorem C4_amended {σ ρ : Type} (stepF : σ → Nat → σ) (fitnessF : σ → Fitness)
    (nextInputF : Nat → ρ → Nat × ρ) (pers : Personality) (nes : σ)
    (last0 : Nat) (q0 : List Nat) (rng : ρ) (c : Fitness)
    (hconst : ∀ s, fitnessF s = c) (hsmart : 1 ≤ pers.smart) :
    ((List.range pers.smart).foldl
        (searchStep stepF fitnessF nextInputF pers nes last0)
        (Fitness.Dying false, q0, rng)).2.1 =
      (genSeq nextInputF (decide (0 < pers.smart - 1)) pers.playful last0
        ((List.range (pers.smart - 1)).foldl
          (searchStep stepF fitnessF nextInputF pers nes last0)
          (Fitness.Dying false, q0, rng)).2.2).1 := by
  obtain ⟨n, hn⟩ : ∃ n, pers.smart = n + 1 := ⟨pers.smart - 1, by omega⟩
  rw [hn]
  simp only [Nat.add_sub_cancel]
  rw [List.range_succ, List.foldl_append, List.foldl_cons, List.foldl_nil]
  set acc := (List.range n).foldl (searchStep stepF fitnessF nextInputF pers nes last0)
    (Fitness.Dying false, q0, rng) with hacc
  have hbest := @searchFold_best σ ρ stepF fitnessF nextInputF pers nes last0 c
    hconst (List.range n) (Fitness.Dying false) q0 rng (Or.inl rfl)
  rw [← hacc] at hbest
  have hge : (fitnessF (rollout stepF nes
      (genSeq nextInputF (decide (0 < n)) pers.playful last0 acc.2.2).1)).fge acc.1
      = true := by
    rw [hconst]
    rcases hbest with hb | hb
    · rw [hb]; exact fge_dying c
    · rw [hb]; exact fge_self c
  rw [searchStep_install acc n hge]

/-- C4 witness: the amended claim at the concrete two-candidate search of
`marioC4`'s personality. -/
theorem C4_witness :
    ((List.range (2 : Nat)).foldl
        (searchStep unitStep (constLevel 5) succInput ⟨5, 3, 1, 2⟩ () 0)
        (Fitness.Dying false, [], ())).2.1 =
      (genSeq succInput (decide (0 < (2 : Nat) - 1)) 1 0
        ((List.range ((2 : Nat) - 1)).foldl
          (searchStep unitStep (constLevel 5) succInput ⟨5, 3, 1, 2⟩ () 0)
          (Fitness.Dying false, [], ())).2.2).1 :=
  C4_amended unitStep (constLevel 5) succInput ⟨5, 3, 1, 2⟩ () 0 [] ()
    (Fitness.Level 5) (fun _ => rfl) (by decide)

/-- C7: every successful tick advances the frontier simulator by exactly one
frame: the new frontier is `stepF` applied once to the post-decision
frontier under the dequeued action, the dequeued action moves to the input
history, and on a non-decision tick (non-empty queue) the decision phase
leaves the agent untouched apart from holding the frontier out of the
stack. -/
theorem C7_thm {σ ρ : Type} (stepF : σ → Nat → σ) (fitnessF : σ → Fitness)
    (nextInputF : Nat → ρ → Nat × ρ) (m m' : Mario σ) (rng rng' : ρ)
    (h : nextFrame stepF fitnessF nextInputF m rng = some (m', rng')) :
    ∃ dm nes a q,
      decisionPhase stepF fitnessF nextInputF m rng = some (dm, nes, rng') ∧
      dm.inputs_future = a :: q ∧
      m' = { dm with inputs_future := q, inputs_past := a :: dm.inputs_past,
                     states := stepF nes a :: dm.states } ∧
      (m.inputs_future = [] ∨
        (dm = { m with states := m.states.tail } ∧ m.states.head? = some nes)) := by
  obtain ⟨dm, nes, hd, hs⟩ := nextFrame_some h
  obtain ⟨a, q, hq, hm⟩ := stepPhase_some hs
  refine ⟨dm, nes, a, q, hd, hq, hm, ?_⟩
  cases hqe : m.inputs_future with
  | nil => exact Or.inl rfl
  | cons b t =>
    right
    unfold decisionPhase at hd
    split at hd
    next heq => exact absurd hd (by simp)
    next nes0 rest heq =>
      dsimp only at hd
      rw [hqe] at hd
      simp only [List.isEmpty_cons, Bool.false_eq_true, if_false] at hd
      simp only [Option.some.injEq, Prod.mk.injEq] at hd
      obtain ⟨hdm, hnes, hrng⟩ := hd
      constructor
      · rw [← hdm]
        simp [heq]
      · rw [heq, ← hnes]
        rfl

/-- C7 witness: a concrete non-decision tick of `marioC7`. -/
theorem C7_witness :
    ∃ dm nes a q,
      decisionPhase unitStep (constLevel 0) succInput marioC7 () = some (dm, nes, ()) ∧
      dm.inputs_future = a :: q ∧
      marioC7out = { dm with inputs_future := q, inputs_past := a :: dm.inputs_past,
                             states := unitStep nes a :: dm.states } ∧
      (marioC7.inputs_future = [] ∨
        (dm = { marioC7 with states := marioC7.states.tail } ∧
          marioC7.states.head? = some nes)) :=
  C7_thm unitStep (constLevel 0) succInput marioC7 marioC7out () () rfl

/-- Every outcome compares `<=` itself. -/
theorem fle_self (x : Fitness) : x.fle x = true := by
  cases x with
  | Dying b => rfl
  | Cutscene => rfl
  | Level a =>
    have h : compare a a = Ordering.eq := by simp [Nat.compare_eq_eq]
    simp [Fitness.fle, Fitness.pcmp, h]

/-- The stuck update touches only `stuck_count` and `being_random`. -/
theorem stuckUpdate_fields {σ : Type} (m : Mario σ) (b s : Fitness) :
    (stuckUpdate m b s).personality = m.personality ∧
    (stuckUpdate m b s).revert_stack = m.revert_stack ∧
    (stuckUpdate m b s).inputs_past = m.inputs_past ∧
    (stuckUpdate m b s).inputs_future = m.inputs_future ∧
    (stuckUpdate m b s).states = m.states := by
  unfold stuckUpdate
  split
  · split
    · exact ⟨rfl, rfl, rfl, rfl, rfl⟩
    · exact ⟨rfl, rfl, rfl, rfl, rfl⟩
  · exact ⟨rfl, rfl, rfl, rfl, rfl⟩

/-- With a constant fitness evaluator, once the running best equals the
constant it stays the constant. -/
theorem searchFold_best_run {σ ρ : Type} {stepF : σ → Nat → σ}
    {fitnessF : σ → Fitness} {nextInputF : Nat → ρ → Nat × ρ}
    {pers : Personality} {nes : σ} {last0 : Nat} {c : Fitness}
    (hconst : ∀ s, fitnessF s = c) :
    ∀ (l : List Nat) (q : List Nat) (r : ρ),
      (l.foldl (searchStep stepF fitnessF nextInputF pers nes last0) (c, q, r)).1 = c := by
  intro l
  induction l with
  | nil => intro q r; rfl
  | cons i t ih =>
    intro q r
    rw [List.foldl_cons]
    have hge : (fitnessF (rollout stepF nes
        (genSeq nextInputF (decide (0 < i)) pers.playful last0 r).1)).fge c = true := by
      rw [hconst]; exact fge_self c
    rw [searchStep_install (c, q, r) i hge, hconst]
    exact ih _ _

/-- With a constant fitness evaluator and at least one candidate, the
winning score of the candidate loop is the constant. -/
theorem searchFold_best_first {σ ρ : Type} {stepF : σ → Nat → σ}
    {fitnessF : σ → Fitness} {nextInputF : Nat → ρ → Nat × ρ}
    {pers : Personality} {nes : σ} {last0 : Nat} {c : Fitness}
    (hconst : ∀ s, fitnessF s = c) (i : Nat) (t : List Nat) (q : List Nat) (r : ρ) :
    (((i :: t).foldl (searchStep stepF fitnessF nextInputF pers nes last0)
        (Fitness.Dying false, q, r)).1 = c) := by
  rw [List.foldl_cons]
  rw [searchStep_install (Fitness.Dying false, q, r) i (fge_dying _), hconst]
  exact searchFold_best_run hconst t _ _

/-- `stepPhase` on a queue known to start with `a`. -/
theorem stepPhase_cons {σ : Type} {stepF : σ → Nat → σ} (m : Mario σ) (nes : σ)
    (a : Nat) (q : List Nat) (h : m.inputs_future = a :: q) :
    stepPhase stepF m nes =
      some { m with inputs_future := q, inputs_past := a :: m.inputs_past,
                    states := stepF nes a :: m.states } := by
  unfold stepPhase
  rw [h]

/-- `nextFrame` from its two successful phases. -/
theorem nextFrame_eq_of {σ ρ : Type} {stepF : σ → Nat → σ}
    {fitnessF : σ → Fitness} {nextInputF : Nat → ρ → Nat × ρ}
    {m : Mario σ} {rng : ρ} {dm : Mario σ} {nes : σ} {rng2 : ρ} {m3 : Mario σ}
    (hd : decisionPhase stepF fitnessF nextInputF m rng = some (dm, nes, rng2))
    (hs : stepPhase stepF dm nes = some m3) :
    nextFrame stepF fitnessF nextInputF m rng = some (m3, rng2) := by
  unfold nextFrame
  rw [hd]
  dsimp only
  rw [hs]

/-- One successful tick unfolds an iterated run. -/
theorem runTicks_succ_some {σ ρ : Type} {stepF : σ → Nat → σ}
    {fitnessF : σ → Fitness} {nextInputF : Nat → ρ → Nat × ρ}
    {m m2 : Mario σ} {rng rng2 : ρ} {k : Nat}
    (h : nextFrame stepF fitnessF nextInputF m rng = some (m2, rng2)) :
    runTicks stepF fitnessF nextInputF (k + 1) m rng =
      runTicks stepF fitnessF nextInputF k m2 rng2 := by
  rw [runTicks, h]

/-- A failing tick fails an iterated run. -/
theorem runTicks_succ_none {σ ρ : Type} {stepF : σ → Nat → σ}
    {fitnessF : σ → Fitness} {nextInputF : Nat → ρ → Nat × ρ}
    {m : Mario σ} {rng : ρ} {k : Nat}
    (h : nextFrame stepF fitnessF nextInputF m rng = none) :
    runTicks stepF fitnessF nextInputF (k + 1) m rng = none := by
  rw [runTicks, h]

/-- Splitting an iterated run. -/
theorem runTicks_add {σ ρ : Type} {stepF : σ → Nat → σ}
    {fitnessF : σ → Fitness} {nextInputF : Nat → ρ → Nat × ρ} :
    ∀ (j k : Nat) (m : Mario σ) (rng : ρ),
      runTicks stepF fitnessF nextInputF (j + k) m rng =
        (runTicks stepF fitnessF nextInputF j m rng).bind
          (fun p => runTicks stepF fitnessF nextInputF k p.1 p.2) := by
  intro j
  induction j with
  | zero => intro k m rng; simp [runTicks]
  | succ i ih =>
    intro k m rng
    rw [show i + 1 + k = (i + k) + 1 from by omega]
    cases hnf : nextFrame stepF fitnessF nextInputF m rng with
    | none => rw [runTicks_succ_none hnf, runTicks_succ_none hnf]; rfl
    | some p =>
      obtain ⟨m2, rng2⟩ := p
      rw [runTicks_succ_some hnf, ih, runTicks_succ_some hnf]

/-- A non-decision tick consumes the head of the queue and advances the
frontier one frame; nothing else changes. -/
theorem nextFrame_drain {σ ρ : Type} {stepF : σ → Nat → σ}
    {fitnessF : σ → Fitness} {nextInputF : Nat → ρ → Nat × ρ}
    {m : Mario σ} {rng : ρ} {nes : σ} {rest : List σ} {a : Nat} {q : List Nat}
    (hst : m.states = nes :: rest) (hq : m.inputs_future = a :: q) :
    nextFrame stepF fitnessF nextInputF m rng =
      some ({ m with inputs_future := q, inputs_past := a :: m.inputs_past,
                     states := stepF nes a :: rest }, rng) := by
  obtain ⟨pers, rs, br, sc0, pastL, fut, st⟩ := m
  dsimp only at hst hq ⊢
  subst hst
  subst hq
  rfl

/-- Draining a whole queue: `l.length` non-decision ticks step the frontier
through `l` (exactly the `rollout` of `l`) and move `l` onto the input
history. -/
theorem runTicks_drain {σ ρ : Type} {stepF : σ → Nat → σ}
    {fitnessF : σ → Fitness} {nextInputF : Nat → ρ → Nat × ρ} :
    ∀ (l : List Nat) (m : Mario σ) (rng : ρ) (nes : σ) (rest : List σ),
      m.states = nes :: rest → m.inputs_future = l →
      runTicks stepF fitnessF nextInputF l.length m rng =
        some ({ m with inputs_future := [],
                       inputs_past := l.reverse ++ m.inputs_past,
                       states := rollout stepF nes l :: rest }, rng) := by
  intro l
  induction l with
  | nil =>
    intro m rng nes rest hst hq
    obtain ⟨pers, rs, br, sc0, pastL, fut, st⟩ := m
    dsimp only at hst hq ⊢
    subst hst
    subst hq
    rfl
  | cons a t ih =>
    intro m rng nes rest hst hq
    rw [show (a :: t).length = t.length + 1 from rfl]
    rw [runTicks_succ_some (nextFrame_drain hst hq)]
    rw [ih _ rng (stepF nes a) rest rfl rfl]
    obtain ⟨pers, rs, br, sc0, pastL, fut, st⟩ := m
    dsimp only at hst hq ⊢
    subst hst
    subst hq
    simp [rollout]

/-- A searching (non-random) decision point at a non-`Dying` frontier: the
decision phase pushes the frontier clone back as a checkpoint, skips the
revert, runs the candidate fold from `Dying(false)` over the empty queue,
applies the stuck update and pushes a fresh revert counter. -/
theorem decisionPhase_search {σ ρ : Type} (stepF : σ → Nat → σ)
    (fitnessF : σ → Fitness) (nextInputF : Nat → ρ → Nat × ρ)
    (m : Mario σ) (rng : ρ) (nes : σ) (rest : List σ) (p0 : Nat) (past : List Nat)
    (hst : m.states = nes :: rest) (hq : m.inputs_future = [])
    (hbr : m.being_random = none) (hpast : m.inputs_past = p0 :: past)
    (hnd : ∀ b, fitnessF nes ≠ Fitness.Dying b) :
    decisionPhase stepF fitnessF nextInputF m rng =
      (let res := (List.range m.personality.smart).foldl
          (searchStep stepF fitnessF nextInputF m.personality nes p0)
          (Fitness.Dying false, [], rng);
       let m3 := stuckUpdate { m with states := nes :: rest, inputs_future := res.2.1 }
          res.1 (fitnessF nes);
       some ({ m3 with revert_stack := 0 :: m3.revert_stack }, nes, res.2.2)) := by
  have h1 : ¬(fitnessF nes = Fitness.Dying false ∨ fitnessF nes = Fitness.Dying true) := by
    rintro (h | h)
    · exact hnd false h
    · exact hnd true h
  obtain ⟨pers, rs, br, sc0, pastL, fut, st⟩ := m
  dsimp only at hst hq hbr hpast ⊢
  subst hst
  subst hq
  subst hbr
  subst hpast
  unfold decisionPhase revertPhase refillPhase
  dsimp only
  rw [if_neg h1]
  rfl

/-- One full decision round under a constant `Level` fitness: a searching,
decision-ready agent (empty queue) performs the decision tick and then
drains the remaining `playful - 1` actions, ending decision-ready again with
its stuck counter increased — or, at the `patient` threshold, reset with
random mode entered for `random` frames. -/
theorem round_const {σ ρ : Type} (stepF : σ → Nat → σ) (fitnessF : σ → Fitness)
    (nextInputF : Nat → ρ → Nat × ρ) (c : Nat)
    (hfit : ∀ s, fitnessF s = Fitness.Level c)
    (m : Mario σ) (rng : ρ)
    (hq : m.inputs_future = []) (hbr : m.being_random = none)
    (hst : m.states ≠ []) (hpast : m.inputs_past ≠ [])
    (hpl : 1 ≤ m.personality.playful) (hsm : 1 ≤ m.personality.smart) :
    ∃ m' rng',
      runTicks stepF fitnessF nextInputF m.personality.playful m rng = some (m', rng') ∧
      m'.personality = m.personality ∧ m'.inputs_future = [] ∧
      m'.states ≠ [] ∧ m'.inputs_past ≠ [] ∧
      (if m.stuck_count + 1 ≥ m.personality.patient then
        m'.stuck_count = 0 ∧ m'.being_random = some m.personality.random
      else m'.stuck_count = m.stuck_count + 1 ∧ m'.being_random = none) := by
  obtain ⟨pers, rs, br, sc0, pastL, fut, st⟩ := m
  dsimp only at hq hbr hst hpast hpl hsm ⊢
  subst hq
  subst hbr
  cases st with
  | nil => exact absurd rfl hst
  | cons nes rest =>
    cases pastL with
    | nil => exact absurd rfl hpast
    | cons p0 past' =>
      have hnd : ∀ b, fitnessF nes ≠ Fitness.Dying b := by
        intro b; rw [hfit]; simp
      have hdp := decisionPhase_search stepF fitnessF nextInputF
        (Mario.mk pers rs none sc0 (p0 :: past') [] (nes :: rest)) rng nes rest p0 past'
        rfl rfl rfl rfl hnd
      dsimp only at hdp
      set res := (List.range pers.smart).foldl
        (searchStep stepF fitnessF nextInputF pers nes p0) (Fitness.Dying false, [], rng)
        with hres
      obtain ⟨n, hn⟩ : ∃ n, pers.smart = n + 1 := ⟨pers.smart - 1, by omega⟩
      have hqlen : res.2.1.length = pers.playful := by
        rw [hres, hn, List.range_succ_eq_map]
        exact searchFold_start 0 _ [] rng
      have hbest : res.1 = Fitness.Level c := by
        rw [hres, hn, List.range_succ_eq_map]
        exact searchFold_best_first hfit 0 _ [] rng
      obtain ⟨a, qrest, haq⟩ : ∃ x t, res.2.1 = x :: t := by
        cases h : res.2.1 with
        | nil => rw [h] at hqlen; simp at hqlen; omega
        | cons x y => exact ⟨x, y, rfl⟩
      rw [hfit nes, hbest, haq] at hdp
      have hpl2 : pers.playful = qrest.length + 1 := by
        rw [haq] at hqlen
        simp at hqlen
        omega
      by_cases hth : sc0 + 1 ≥ pers.patient
      · have hsu : stuckUpdate
            (Mario.mk pers rs none sc0 (p0 :: past') (a :: qrest) (nes :: rest))
            (Fitness.Level c) (Fitness.Level c) =
            Mario.mk pers rs (some pers.random) 0 (p0 :: past') (a :: qrest)
              (nes :: rest) := by
          unfold stuckUpdate
          dsimp only
          rw [if_pos ⟨fle_self _, by simp⟩, if_pos hth]
        rw [hsu] at hdp
        dsimp only at hdp
        have hsp := @stepPhase_cons σ stepF
          (Mario.mk pers (0 :: rs) (some pers.random) 0 (p0 :: past') (a :: qrest)
            (nes :: rest)) nes a qrest rfl
        have hnf := nextFrame_eq_of hdp hsp
        dsimp only at hnf
        have hdrain := @runTicks_drain σ ρ stepF fitnessF nextInputF qrest
          (Mario.mk pers (0 :: rs) (some pers.random) 0 (a :: p0 :: past') qrest
            (stepF nes a :: nes :: rest)) res.2.2 (stepF nes a) (nes :: rest) rfl rfl
        dsimp only at hdrain
        refine ⟨_, res.2.2, by rw [hpl2, runTicks_succ_some hnf]; exact hdrain,
          ?_, ?_, ?_, ?_, ?_⟩
        · rfl
        · rfl
        · simp
        · simp
        · rw [if_pos hth]
          exact ⟨rfl, rfl⟩
      · have hsu : stuckUpdate
            (Mario.mk pers rs none sc0 (p0 :: past') (a :: qrest) (nes :: rest))
            (Fitness.Level c) (Fitness.Level c) =
            Mario.mk pers rs none (sc0 + 1) (p0 :: past') (a :: qrest)
              (nes :: rest) := by
          unfold stuckUpdate
          dsimp only
          rw [if_pos ⟨fle_self _, by simp⟩, if_neg hth]
        rw [hsu] at hdp
        dsimp only at hdp
        have hsp := @stepPhase_cons σ stepF
          (Mario.mk pers (0 :: rs) none (sc0 + 1) (p0 :: past') (a :: qrest)
            (nes :: rest)) nes a qrest rfl
        have hnf := nextFrame_eq_of hdp hsp
        dsimp only at hnf
        have hdrain := @runTicks_drain σ ρ stepF fitnessF nextInputF qrest
          (Mario.mk pers (0 :: rs) none (sc0 + 1) (a :: p0 :: past') qrest
            (stepF nes a :: nes :: rest)) res.2.2 (stepF nes a) (nes :: rest) rfl rfl
        dsimp only at hdrain
        refine ⟨_, res.2.2, by rw [hpl2, runTicks_succ_some hnf]; exact hdrain,
          ?_, ?_, ?_, ?_, ?_⟩
        · rfl
        · rfl
        · simp
        · simp
        · rw [if_neg hth]
          exact ⟨rfl, rfl⟩

/-- Composing two successful runs. -/
theorem runTicks_chain {σ ρ : Type} {stepF : σ → Nat → σ}
    {fitnessF : σ → Fitness} {nextInputF : Nat → ρ → Nat × ρ}
    {j k : Nat} {m m1 m2 : Mario σ} {rng rng1 rng2 : ρ}
    (h1 : runTicks stepF fitnessF nextInputF j m rng = some (m1, rng1))
    (h2 : runTicks stepF fitnessF nextInputF k m1 rng1 = some (m2, rng2)) :
    runTicks stepF fitnessF nextInputF (j + k) m rng = some (m2, rng2) := by
  rw [runTicks_add, h1]
  exact h2

/-- C6: under a constant, never-improving `Level` fitness a searching agent
increments its stuck counter at each decision point: after any `j ≤
patience - 1` decision rounds it is still searching with stuck counter `j`,
and after exactly `patience` decision rounds the counter has been reset to
0 and the agent has entered random mode for `random_duration` frames. -/
theorem C6_thm {σ ρ : Type} (stepF : σ → Nat → σ) (fitnessF : σ → Fitness)
    (nextInputF : Nat → ρ → Nat × ρ) (c : Nat) (m : Mario σ) (rng : ρ)
    (hfit : ∀ s, fitnessF s = Fitness.Level c)
    (hq : m.inputs_future = []) (hbr : m.being_random = none)
    (hsc : m.stuck_count = 0)
    (hst : m.states ≠ []) (hpast : m.inputs_past ≠ [])
    (hpl : 1 ≤ m.personality.playful) (hsm : 1 ≤ m.personality.smart)
    (hpat : 1 ≤ m.personality.patient) :
    (∀ j, j ≤ m.personality.patient - 1 →
      ∃ mj rngj,
        runTicks stepF fitnessF nextInputF (j * m.personality.playful) m rng
          = some (mj, rngj) ∧ mj.being_random = none ∧ mj.stuck_count = j) ∧
    (∃ mp rngp,
      runTicks stepF fitnessF nextInputF
          (m.personality.patient * m.personality.playful) m rng = some (mp, rngp) ∧
      mp.being_random = some m.personality.random ∧ mp.stuck_count = 0) := by
  have key : ∀ j, j ≤ m.personality.patient - 1 →
      ∃ mj rngj,
        runTicks stepF fitnessF nextInputF (j * m.personality.playful) m rng
          = some (mj, rngj) ∧
        mj.personality = m.personality ∧ mj.inputs_future = [] ∧
        mj.being_random = none ∧ mj.stuck_count = j ∧
        mj.states ≠ [] ∧ mj.inputs_past ≠ [] := by
    intro j
    induction j with
    | zero =>
      intro _
      exact ⟨m, rng, by rw [Nat.zero_mul]; rfl, rfl, hq, hbr, hsc, hst, hpast⟩
    | succ i ih =>
      intro hj
      obtain ⟨mi, rngi, hrun, hpers, hq', hbr', hsc', hst', hpast'⟩ := ih (by omega)
      obtain ⟨m', rng', hrun', hpers', hq'', hst'', hpast'', hcond⟩ :=
        round_const stepF fitnessF nextInputF c hfit mi rngi hq' hbr' hst' hpast'
          (by rw [hpers]; exact hpl) (by rw [hpers]; exact hsm)
      have hneg : ¬(mi.stuck_count + 1 ≥ mi.personality.patient) := by
        rw [hsc', hpers]
        omega
      rw [if_neg hneg] at hcond
      rw [hpers] at hrun'
      refine ⟨m', rng', ?_, hpers'.trans hpers, hq'', hcond.2, ?_, hst'', hpast''⟩
      · rw [Nat.succ_mul]
        exact runTicks_chain hrun hrun'
      · rw [hcond.1, hsc']
  constructor
  · intro j hj
    obtain ⟨mj, rngj, h1, _, _, h4, h5, _, _⟩ := key j hj
    exact ⟨mj, rngj, h1, h4, h5⟩
  · obtain ⟨mp1, rngp1, hrun, hpers, hq', hbr', hsc', hst', hpast'⟩ :=
      key (m.personality.patient - 1) (le_refl _)
    obtain ⟨m', rng', hrun', hpers', hq'', hst'', hpast'', hcond⟩ :=
      round_const stepF fitnessF nextInputF c hfit mp1 rngp1 hq' hbr' hst' hpast'
        (by rw [hpers]; exact hpl) (by rw [hpers]; exact hsm)
    have hpos : mp1.stuck_count + 1 ≥ mp1.personality.patient := by
      rw [hsc', hpers]
      omega
    rw [if_pos hpos] at hcond
    rw [hpers] at hrun'
    refine ⟨m', rng', ?_, ?_, hcond.1⟩
    · have hmul : m.personality.patient * m.personality.playful =
          (m.personality.patient - 1) * m.personality.playful +
            m.personality.playful := by
        obtain ⟨pp, hpp⟩ : ∃ pp, m.personality.patient = pp + 1 :=
          ⟨m.personality.patient - 1, by omega⟩
        rw [hpp]
        simp [Nat.succ_mul]
      rw [hmul]
      exact runTicks_chain hrun hrun'
    · rw [hcond.2, hpers]

/-- C6 witness: a concrete agent with `patience = 2`, `random_duration = 3`,
a one-frame horizon and one candidate, under the constant `Level 0`
fitness. -/
theorem C6_witness :
    (∀ j, j ≤ marioC6.personality.patient - 1 →
      ∃ mj rngj,
        runTicks unitStep (constLevel 0) succInput
          (j * marioC6.personality.playful) marioC6 () = some (mj, rngj) ∧
        mj.being_random = none ∧ mj.stuck_count = j) ∧
    (∃ mp rngp,
      runTicks unitStep (constLevel 0) succInput
          (marioC6.personality.patient * marioC6.personality.playful) marioC6 ()
        = some (mp, rngp) ∧
      mp.being_random = some marioC6.personality.random ∧ mp.stuck_count = 0) :=
  C6_thm unitStep (constLevel 0) succInput 0 marioC6 () (fun _ => rfl) rfl rfl rfl
    (by decide) (by decide) (by decide) (by decide) (by decide)

/-- C10: `Failing(false)` is a least element of the outcome comparison; at a
searching decision point with a non-failing frontier, at least one candidate
and a positive horizon, the first candidate already scores at least the
initial best, so the search installs a full `playful`-action candidate into
the queue and the subsequent dequeue-and-step never fails. -/
theorem C10_thm {σ ρ : Type} (stepF : σ → Nat → σ) (fitnessF : σ → Fitness)
    (nextInputF : Nat → ρ → Nat × ρ) (m : Mario σ) (rng : ρ) (nes : σ)
    (rest : List σ)
    (hst : m.states = nes :: rest) (hq : m.inputs_future = [])
    (hbr : m.being_random = none) (hpast : m.inputs_past ≠ [])
    (hnd : ∀ b, fitnessF nes ≠ Fitness.Dying b)
    (hsm : 1 ≤ m.personality.smart) (hpl : 1 ≤ m.personality.playful) :
    (∀ o : Fitness, (Fitness.Dying false).fle o = true) ∧
    (∃ dm nes2 rng2,
       decisionPhase stepF fitnessF nextInputF m rng = some (dm, nes2, rng2) ∧
       dm.inputs_future.length = m.personality.playful) ∧
    (∃ m' rng', nextFrame stepF fitnessF nextInputF m rng = some (m', rng')) := by
  obtain ⟨p0, past', hpast'⟩ : ∃ x t, m.inputs_past = x :: t := by
    cases h : m.inputs_past with
    | nil => exact absurd h hpast
    | cons x y => exact ⟨x, y, rfl⟩
  have hdp := decisionPhase_search stepF fitnessF nextInputF m rng nes rest p0 past'
    hst hq hbr hpast' hnd
  dsimp only at hdp
  set res := (List.range m.personality.smart).foldl
    (searchStep stepF fitnessF nextInputF m.personality nes p0)
    (Fitness.Dying false, [], rng) with hres
  obtain ⟨n, hn⟩ : ∃ n, m.personality.smart = n + 1 :=
    ⟨m.personality.smart - 1, by omega⟩
  have hqlen : res.2.1.length = m.personality.playful := by
    rw [hres, hn, List.range_succ_eq_map]
    exact searchFold_start 0 _ [] rng
  obtain ⟨a, qrest, haq⟩ : ∃ x t, res.2.1 = x :: t := by
    cases h : res.2.1 with
    | nil => rw [h] at hqlen; simp at hqlen; omega
    | cons x y => exact ⟨x, y, rfl⟩
  refine ⟨fun o => by cases o <;> rfl, ⟨_, nes, res.2.2, hdp, ?_⟩, ?_⟩
  · dsimp only
    rw [(stuckUpdate_fields _ _ _).2.2.2.1]
    exact hqlen
  · have hdmq : (stuckUpdate { m with states := nes :: rest, inputs_future := res.2.1 }
        res.1 (fitnessF nes)).inputs_future = a :: qrest := by
      rw [(stuckUpdate_fields _ _ _).2.2.2.1]
      exact haq
    exact ⟨_, res.2.2, nextFrame_eq_of hdp (stepPhase_cons
      { (stuckUpdate { m with states := nes :: rest, inputs_future := res.2.1 }
          res.1 (fitnessF nes)) with
        revert_stack :=
          0 :: (stuckUpdate { m with states := nes :: rest, inputs_future := res.2.1 }
            res.1 (fitnessF nes)).revert_stack }
      nes a qrest hdmq)⟩

/-- C10 witness: the concrete searching decision point of `marioC6`. -/
theorem C10_witness :
    (∀ o : Fitness, (Fitness.Dying false).fle o = true) ∧
    (∃ dm nes2 rng2,
       decisionPhase unitStep (constLevel 0) succInput marioC6 ()
         = some (dm, nes2, rng2) ∧
       dm.inputs_future.length = marioC6.personality.playful) ∧
    (∃ m' rng', nextFrame unitStep (constLevel 0) succInput marioC6 ()
      = some (m', rng')) :=
  C10_thm unitStep (constLevel 0) succInput marioC6 () () [] rfl rfl rfl
    (by decide) (fun b => by simp [constLevel]) (by decide) (by decide)
